import Mathlib

/-!
Verification of the placeholder parser and resolution engine in
`placeholder_helper/__init__.py`.

Strings are modelled as `List Char`.  Python string slicing `value[a:b]`
becomes `(value.take b).drop a`; `str.find(sub, i)` becomes an explicit
scan returning `Option Nat` (`none` for Python's `-1`).

The parser's inner `while` loops and the recursive re-expansion of
resolved values are rendered with explicit fuel: the Python code bounds
neither (it diverges on pathological configurations such as an empty
prefix, and on lookup chains of unboundedly many distinct keys), so fuel
is the standard way to make the embedding total.  Entry points pass fuel
large enough that the fuel-out branches are unreachable on the inputs the
theorems speak about; running out of fuel during recursive re-expansion
is reported as a distinguished `RErr.fuelOut` value, never confused with
the Python exception (`RErr.placeholderError`).

The parser accumulates its output list in reverse (head = most recently
appended part) and reverses at the end; this renders Python's
`parts.append` / mutate-last-element idiom functionally.
-/

namespace PlaceholderHelper

/-- Character constants, kept as `Char.ofNat` so that source text stays
plain ASCII. -/
def lbrace : Char := Char.ofNat 123

/-- Closing brace character. -/
def rbrace : Char := Char.ofNat 125

/-- Single-quote character. -/
def squote : Char := Char.ofNat 39

/-- Double-quote character. -/
def dquote : Char := Char.ofNat 34

/-- Backslash character. -/
def bslash : Char := Char.ofNat 92

/-- Python `value[a:b]` for `0 ≤ a`, `0 ≤ b`. -/
def slice (l : List Char) (a b : Nat) : List Char := (l.take b).drop a

/-- Scan helper for `findFrom`: `rem` is `value.drop j`. -/
def findFromAux (pat : List Char) : List Char → Nat → Option Nat
  | rem, j =>
    if pat.isPrefixOf rem then some j
    else
      match rem with
      | [] => none
      | _ :: tl => findFromAux pat tl (j + 1)

/-- Python `value.find(pat, i)`: index of the first occurrence of `pat`
in `value` at position `≥ i`, `none` when there is none
(`PlaceholderHelper._next_start_prefix`). -/
def findFrom (pat value : List Char) (i : Nat) : Option Nat :=
  findFromAux pat (value.drop i) i

/-- Segments produced by the parser: `TextPart`, `SimplePlaceholderPart`
(body text, split key, optional fallback) and `NestedPlaceholderPart`
(body text, key parts, optional default parts). -/
inductive Part where
  | text (t : List Char)
  | simple (txt : List Char) (key : List Char) (fallback : Option (List Char))
  | nested (txt : List Char) (keyParts : List Part) (defaultParts : Option (List Part))

/-- Python `Part.text` property. -/
def Part.txt : Part → List Char
  | .text t => t
  | .simple t _ _ => t
  | .nested t _ _ => t

/-- Whether a part is a `TextPart` (`isinstance(part, TextPart)`). -/
def Part.isText : Part → Bool
  | .text _ => true
  | _ => false

/-- Delimiter configuration of `PlaceholderHelper.__init__`: prefix,
suffix, optional separator, optional escape character, and the default
unresolvable-placeholder policy. -/
structure Helper where
  pre : List Char
  suf : List Char
  sep : Option (List Char)
  esc : Option Char
  ignoreUnresolvable : Bool
deriving DecidableEq

/-- The `_WELL_KNOWN_SIMPLE_PREFIXES` table (note the inverted pairing
for parentheses, preserved from the source). -/
def wellKnownSimplePre (suf : List Char) : Option (List Char) :=
  if suf = [rbrace] then some [lbrace]
  else if suf = [']'] then some ['[']
  else if suf = ['('] then some [')']
  else none

/-- Derived `_simple_prefix` field: degrade to the bare opener character
when the suffix is well known and the prefix ends with that opener. -/
def Helper.simplePre (h : Helper) : List Char :=
  match wellKnownSimplePre h.suf with
  | some sp => if sp.isSuffixOf h.pre then sp else h.pre
  | none => h.pre

/-- Python `PlaceholderHelper._is_escaped`. -/
def Helper.isEscaped (h : Helper) (value : List Char) (index : Nat) : Bool :=
  match h.esc with
  | none => false
  | some e => decide (0 < index) && decide (value.get? (index - 1) = some e)

/-- Loop of `PlaceholderHelper._next_valid_end_prefix`: scan from
`index` with a nesting-depth counter.  Each iteration advances `index`
by at least one for non-empty suffix and simple prefix, so fuel
`value.length + 1` is enough. -/
def nextValidEndAux (h : Helper) (value : List Char) : Nat → Nat → Nat → Option Nat
  | _, _, 0 => none
  | index, depth, fz + 1 =>
    if index < value.length then
      if h.suf.isPrefixOf (value.drop index) then
        if 0 < depth then nextValidEndAux h value (index + h.suf.length) (depth - 1) fz
        else some index
      else if h.simplePre.isPrefixOf (value.drop index) then
        nextValidEndAux h value (index + h.simplePre.length) (depth + 1) fz
      else
        nextValidEndAux h value (index + 1) depth fz
    else none

/-- Python `PlaceholderHelper._next_valid_end_prefix`: find the suffix
occurrence matching the prefix occurrence at `start`. -/
def Helper.nextValidEnd (h : Helper) (value : List Char) (start : Nat) : Option Nat :=
  nextValidEndAux h value (start + h.pre.length) 0 (value.length + 1)

/-- Python `PlaceholderHelper._add_text`, on a reversed accumulator:
merge into the most recently appended `TextPart` when there is one. -/
def addTextRev (value : List Char) (s e : Nat) (rparts : List Part) : List Part :=
  if e < s then rparts
  else
    let t := slice value s e
    if t = [] then rparts
    else
      match rparts with
      | Part.text t0 :: rest => Part.text (t0 ++ t) :: rest
      | _ => Part.text t :: rparts

/-- Loop of `PlaceholderHelper._parse_section`, splitting a plain body
at the first unescaped separator occurrence; escaped occurrences lose
the escape character and scanning continues.  `buffer` accumulates the
key. -/
def parseSectionAux (h : Helper) (sep value : List Char) :
    List Char → Nat → Nat → List Char × Option (List Char)
  | buffer, position, 0 => (buffer ++ value.drop position, none)
  | buffer, position, fz + 1 =>
    match findFrom sep value position with
    | none => (buffer ++ value.drop position, none)
    | some index =>
      if h.isEscaped value index then
        let buffer := buffer ++ slice value position (index - 1)
        let position2 := index + sep.length
        let buffer := buffer ++ slice value index position2
        parseSectionAux h sep value buffer position2 fz
      else
        (buffer ++ slice value position index, some (value.drop (index + sep.length)))

/-- Python `PlaceholderHelper._parse_section`: split a body into key and
optional fallback at the first unescaped separator. -/
def Helper.parseSection (h : Helper) (value : List Char) : List Char × Option (List Char) :=
  match h.sep with
  | none => (value, none)
  | some sep =>
    if sep <:+: value then parseSectionAux h sep value [] 0 (value.length + 1)
    else (value, none)

/-- Loop of `PlaceholderHelper._create_nested_placeholder_part`:
accumulate key parts until a `TextPart` splits at a separator, then the
remainder becomes the default parts. -/
def createNestedAux (h : Helper) (txt : List Char) : List Part → List Part → Part
  | keyParts, [] => Part.nested txt keyParts none
  | keyParts, Part.text t :: rest =>
    match h.parseSection t with
    | (key, some fb) =>
      Part.nested txt (keyParts ++ [Part.text key]) (some (Part.text fb :: rest))
    | (key, none) => createNestedAux h txt (keyParts ++ [Part.text key]) rest
  | keyParts, p :: rest => createNestedAux h txt (keyParts ++ [p]) rest

/-- Python `PlaceholderHelper._create_nested_placeholder_part`. -/
def Helper.createNested (h : Helper) (txt : List Char) (parts : List Part) : Part :=
  match h.sep with
  | none => Part.nested txt parts none
  | some _ => createNestedAux h txt [] parts

/-- The `while start_index != -1` loop of `PlaceholderHelper._parse`,
with the trailing-text append after the loop.  The accumulator `rparts`
is in reverse order; the returned list is still reversed.  `parseBody`
is the recursive parse of a delimited body (with `in_placeholder=True`),
passed as a parameter so that the loop is structurally recursive on its
own fuel; each iteration advances `position` by at least one for a
non-empty prefix and suffix, so `value.length + 1` loop fuel is always
enough. -/
def parseLoop (h : Helper) (parseBody : List Char → List Part) (value : List Char) :
    Nat → Nat → Option Nat → List Part → List Part
  | _, position, none, rparts => addTextRev value position value.length rparts
  | 0, position, some _, rparts => addTextRev value position value.length rparts
  | lf + 1, position, some start, rparts =>
    match h.nextValidEnd value start with
    | none =>
      let nextPosition := start + h.pre.length
      let rparts := addTextRev value position nextPosition rparts
      parseLoop h parseBody value lf nextPosition (findFrom h.pre value nextPosition) rparts
    | some endIndex =>
      if h.isEscaped value start then
        let rparts := addTextRev value position (start - 1) rparts
        let nextPosition := start + h.pre.length
        let rparts := addTextRev value start nextPosition rparts
        parseLoop h parseBody value lf nextPosition (findFrom h.pre value nextPosition) rparts
      else
        let rparts := addTextRev value position start rparts
        let body := slice value (start + h.pre.length) endIndex
        let bodyParts := parseBody body
        let rparts := bodyParts.reverse ++ rparts
        let nextPosition := endIndex + h.suf.length
        parseLoop h parseBody value lf nextPosition (findFrom h.pre value nextPosition) rparts

/-- Python `PlaceholderHelper._parse`.  `fuel` bounds the nesting depth
of recursive body parses (each body is strictly shorter than its
enclosing text for a non-empty prefix, so `value.length + 1` is always
enough at entry). -/
def Helper.parse (h : Helper) : Nat → List Char → Bool → List Part
  | 0, _, _ => []
  | fuel + 1, value, inPlaceholder =>
    match findFrom h.pre value 0 with
    | none =>
      if inPlaceholder then
        let (key, fallback) := h.parseSection value
        [Part.simple value key fallback]
      else [Part.text value]
    | some start0 =>
      let rparts :=
        parseLoop h (fun body => h.parse fuel body true) value (value.length + 1) 0
          (some start0) []
      let parts := rparts.reverse
      if inPlaceholder then [h.createNested value parts] else parts

/-- Top-level parse, `self._parse(value, False)` with enough fuel. -/
def Helper.parseTop (h : Helper) (value : List Char) : List Part :=
  h.parse (value.length + 1) value false

/-- Data carried by `PlaceholderResolutionException`: the reason line,
the offending placeholder key, and the ordered chain of values. -/
structure PRErr where
  reason : List Char
  placeholder : List Char
  values : List (List Char)
deriving DecidableEq

/-- Result error: either a genuine `PlaceholderResolutionException` or
fuel exhaustion (the embedding's marker for a Python computation that
would not have terminated within the given recursion budget). -/
inductive RErr where
  | placeholderError (e : PRErr)
  | fuelOut
deriving DecidableEq

/-- Python `f-string` fragment `'"{value}"'`. -/
def quoteVal (v : List Char) : List Char := dquote :: v ++ [dquote]

/-- Python `" <-- ".join(f'"{value}"' for value in values)`. -/
def quotedChain : List (List Char) → List Char
  | [] => []
  | [v] => quoteVal v
  | v :: rest => quoteVal v ++ " <-- ".data ++ quotedChain rest

/-- Python `PlaceholderResolutionException._build_message`. -/
def buildMessage (reason : List Char) (values : List (List Char)) : List Char :=
  if values = [] then reason
  else reason ++ " in value ".data ++ quotedChain values

/-- Rendered message of an exception (`exc.args[0]`). -/
def PRErr.message (e : PRErr) : List Char := buildMessage e.reason e.values

/-- Python `PlaceholderResolutionException.with_value`. -/
def PRErr.withValue (e : PRErr) (v : List Char) : PRErr :=
  ⟨e.reason, e.placeholder, e.values ++ [v]⟩

/-- Apply `with_value` to a genuine exception; fuel exhaustion just
propagates. -/
def RErr.addValue : RErr → List Char → RErr
  | .placeholderError e, v => .placeholderError (e.withValue v)
  | .fuelOut, _ => .fuelOut

/-- Reason text `Could not resolve placeholder '<key>'`. -/
def couldNotResolveMsg (key : List Char) : List Char :=
  "Could not resolve placeholder ".data ++ squote :: key ++ [squote]

/-- Reason text `Circular placeholder reference '<key>'`. -/
def circularRefMsg (key : List Char) : List Char :=
  "Circular placeholder reference ".data ++ squote :: key ++ [squote]

/-- The `PartResolutionContext`: prefix/suffix (taken from the helper),
the effective ignore flag, and the resolver.  The parser field of the
Python context is `functools.partial(self._parse, in_placeholder=False)`,
i.e. `Helper.parseTop`. -/
structure Ctx where
  h : Helper
  ign : Bool
  resolver : List Char → Option (List Char)

/-- Python `PartResolutionContext.handle_unresolvable_placeholder`. -/
def Ctx.handleUnresolvable (c : Ctx) (key txt : List Char) : Except RErr (List Char) :=
  if c.ign then .ok (c.h.pre ++ key ++ c.h.suf)
  else
    .error (.placeholderError ⟨couldNotResolveMsg key, key,
      if key ≠ txt then [c.h.pre ++ key ++ c.h.suf] else []⟩)

mutual

/-- The `"".join(self.resolve_part(part) for part in parts)` of
`PartResolutionContext.resolve_parts`, before the exception handler.
Python's `resolve_parts` with `value=None` re-raises the exception
unchanged, so it is exactly this join; the `NestedPlaceholderPart`
branches below (which pass `value=None`) therefore call the join
directly.  `expand` is `resolve_recursively` with the recursion budget
already fixed, passed as a parameter so that this group is structurally
recursive on the part tree. -/
def resolvePartsJoinCore (expand : List (List Char) → List Char → Except RErr (Option (List Char)))
    (c : Ctx) (visited : List (List Char)) : List Part → Except RErr (List Char)
  | [] => .ok []
  | p :: rest =>
    match resolvePartCore expand c visited p with
    | .error e => .error e
    | .ok s =>
      match resolvePartsJoinCore expand c visited rest with
      | .error e => .error e
      | .ok r => .ok (s ++ r)

/-- Python `Part.resolve` for the three part kinds.  For
`SimplePlaceholderPart` this includes `_resolve_recursively`: when the
raw body text differs from the split key, the raw text is tried as a
lookup name first. -/
def resolvePartCore (expand : List (List Char) → List Char → Except RErr (Option (List Char)))
    (c : Ctx) (visited : List (List Char)) : Part → Except RErr (List Char)
  | .text t => .ok t
  | .simple txt key fallback =>
    let attempt : Except RErr (Option (List Char)) :=
      if txt ≠ key then
        match expand visited txt with
        | .ok (some v) => .ok (some v)
        | .ok none => expand visited key
        | .error e => .error e
      else expand visited key
    match attempt with
    | .error e => .error e
    | .ok (some v) => .ok v
    | .ok none =>
      match fallback with
      | some f => .ok f
      | none => c.handleUnresolvable key txt
  | .nested txt keyParts defaultParts =>
    match resolvePartsJoinCore expand c visited keyParts with
    | .error e => .error e
    | .ok resolvedKey =>
      match expand visited resolvedKey with
      | .error e => .error e
      | .ok (some v) => .ok v
      | .ok none =>
        match defaultParts with
        | some ds => resolvePartsJoinCore expand c visited ds
        | none => c.handleUnresolvable resolvedKey txt

end

/-- Python `PartResolutionContext.resolve_parts`: the join above plus
the exception handler that appends `value` (when given) to the chain of
a propagating exception. -/
def resolvePartsCore (expand : List (List Char) → List Char → Except RErr (Option (List Char)))
    (c : Ctx) (visited : List (List Char)) (parts : List Part) (value : Option (List Char)) :
    Except RErr (List Char) :=
  match resolvePartsJoinCore expand c visited parts with
  | .ok s => .ok s
  | .error err =>
    match value with
    | some v => .error (err.addValue v)
    | none => .error err

/-- Python `PartResolutionContext.resolve_recursively` together with the
`_visit_placeholder` guard: look the key up, detect a cycle, re-parse the
resolved value and, when it is not text-only, resolve it recursively with
the key added to the visited set for the duration of that resolution.
Structurally recursive on `fuel`, which is only consumed when a resolved
value needs recursive re-expansion (the point where the Python recursion
is unbounded). -/
def Ctx.resolveRecursively (c : Ctx) : Nat → List (List Char) → List Char →
    Except RErr (Option (List Char))
  | fuel, visited, key =>
    match c.resolver key with
    | none => .ok none
    | some resolvedValue =>
      if key ∈ visited then
        .error (.placeholderError ⟨circularRefMsg key, key, []⟩)
      else
        match fuel with
        | 0 => .error .fuelOut
        | fuel + 1 =>
          let parts := c.h.parseTop resolvedValue
          if parts.all Part.isText then .ok (some (parts.map Part.txt).flatten)
          else
            match resolvePartsCore (fun vs k => c.resolveRecursively fuel vs k) c
                (key :: visited) parts (some resolvedValue) with
            | .ok s => .ok (some s)
            | .error e => .error e

/-- Python `PartResolutionContext.resolve_parts` with an explicit
recursion budget. -/
def Ctx.resolveParts (c : Ctx) (visited : List (List Char)) (fuel : Nat)
    (parts : List Part) (value : Option (List Char)) : Except RErr (List Char) :=
  resolvePartsCore (fun vs k => c.resolveRecursively fuel vs k) c visited parts value

/-- Python `PartResolutionContext.resolve_part` with an explicit
recursion budget. -/
def Ctx.resolvePart (c : Ctx) (visited : List (List Char)) (fuel : Nat) (p : Part) :
    Except RErr (List Char) :=
  resolvePartCore (fun vs k => c.resolveRecursively fuel vs k) c visited p

/-- Python's `ignore_unresolvable_placeholders or self._ignore_unresolvable_placeholders`
in `replace_placeholders`: the per-call argument (`none` = Python `None`)
is combined with the construction-time default by Python `or`, so only a
truthy override takes effect. -/
def effectiveIgnore : Option Bool → Bool → Bool
  | some true, _ => true
  | _, d => d

/-- Python `PlaceholderHelper.replace_placeholders` (with the resolver
already in function form; the mapping/attribute normalization is the
boundary's concern). -/
def Helper.replacePlaceholders (h : Helper) (value : List Char)
    (resolver : List Char → Option (List Char)) (ignoreOverride : Option Bool)
    (fuel : Nat) : Except RErr (List Char) :=
  let parts := h.parseTop value
  let c : Ctx := ⟨h, effectiveIgnore ignoreOverride h.ignoreUnresolvable, resolver⟩
  c.resolveParts [] fuel parts (some value)

/-- Decidable equality for results, so that concrete runs can be settled
by `decide`. -/
instance {ε α : Type} [DecidableEq ε] [DecidableEq α] : DecidableEq (Except ε α) :=
  fun a b =>
    match a, b with
    | .ok x, .ok y =>
      if h : x = y then isTrue (by rw [h]) else isFalse (by simp [h])
    | .error x, .error y =>
      if h : x = y then isTrue (by rw [h]) else isFalse (by simp [h])
    | .ok _, .error _ => isFalse (by simp)
    | .error _, .ok _ => isFalse (by simp)

/-! Concrete configurations and resolvers mirroring the repository's
tests, shared by several claims below. -/

/-- The standard prefix `${`. -/
def stdPre : List Char := ['$', lbrace]

/-- Wrap a body in the standard delimiters: `${body}`. -/
def phWrap (s : List Char) : List Char := '$' :: lbrace :: s ++ [rbrace]

/-- Helper `PlaceholderHelper("${", "}")`: non-strict, no separator. -/
def helperNS : Helper := ⟨stdPre, [rbrace], none, none, true⟩

/-- Helper `PlaceholderHelper("${", "}", ":")`: non-strict with
separator. -/
def helperSep : Helper := ⟨stdPre, [rbrace], some [':'], none, true⟩

/-- Helper `PlaceholderHelper("${", "}", ":", None, False)`: strict. -/
def helperStrict : Helper := ⟨stdPre, [rbrace], some [':'], none, false⟩

/-- Helper `PlaceholderHelper("${", "}", ":", "\\", True)`: with escape
character. -/
def helperEsc : Helper := ⟨stdPre, [rbrace], some [':'], some bslash, true⟩

/-- Lookup `{pL: "${pR}", pR: "${pL}"}`. -/
def resolverCirc : List Char → Option (List Char) := fun n =>
  if n = "pL".data then some (phWrap ("pR".data))
  else if n = "pR".data then some (phWrap ("pL".data))
  else none

/-- Lookup mapping both the raw body `a:b` (to `X`) and the split key
`a` (to `Y`). -/
def resolverRawAndKey : List Char → Option (List Char) := fun n =>
  if n = "a:b".data then some ("X".data)
  else if n = "a".data then some ("Y".data)
  else none

/-- Lookup mapping only the split key `a` (to `Y`), agreeing with
`resolverRawAndKey` on `a`. -/
def resolverKeyOnly : List Char → Option (List Char) := fun n =>
  if n = "a".data then some ("Y".data) else none

/-- Lookup `{inner: "ar"}`. -/
def resolverInner : List Char → Option (List Char) := fun n =>
  if n = "inner".data then some ("ar".data) else none

/-! Verification-side predicates used to state the parser invariants. -/

/-- Whether the head of a part list is a `TextPart`. -/
def headIsText : List Part → Bool
  | [] => false
  | p :: _ => p.isText

/-- No two adjacent `TextPart`s in a part list. -/
def noAdjB : List Part → Bool
  | [] => true
  | [_] => true
  | p :: q :: rest => !(p.isText && q.isText) && noAdjB (q :: rest)

mutual

/-- The no-adjacent-literals invariant holds inside a part: for a
`NestedPlaceholderPart`, its key parts and default parts have no two
adjacent `TextPart`s, recursively. -/
def partOkB : Part → Bool
  | .text _ => true
  | .simple _ _ _ => true
  | .nested _ kps dps =>
    noAdjB kps && listPartsOkB kps &&
      (match dps with
       | some ds => noAdjB ds && listPartsOkB ds
       | none => true)

/-- `partOkB` for every element of a list. -/
def listPartsOkB : List Part → Bool
  | [] => true
  | p :: rest => partOkB p && listPartsOkB rest

end

/-- The no-adjacent-literals invariant for a produced segment list: it
holds for the list itself and inside every part. -/
def listOkB (l : List Part) : Bool := noAdjB l && listPartsOkB l

/-- Part list holding a single accumulated literal, or nothing for the
empty text: the shape of the parser's accumulator when only literal
text has been appended. -/
def textAcc (t : List Char) : List Part := if t = [] then [] else [Part.text t]

/-! Hand-written unfolding equations for the structurally recursive
part-resolution group (the automatic equation generation does not cope
with the nested `Part`/`List Part` recursion). -/

/-- Unfolding of `resolvePartCore` at a `TextPart`. -/
theorem resolvePartCore_text (expand) (c : Ctx) (visited) (t : List Char) :
    resolvePartCore expand c visited (.text t) = .ok t := rfl

/-- Unfolding of `resolvePartCore` at a `SimplePlaceholderPart`. -/
theorem resolvePartCore_simple (expand) (c : Ctx) (visited) (txt key : List Char)
    (fb : Option (List Char)) :
    resolvePartCore expand c visited (.simple txt key fb) =
      (match (if txt ≠ key then
          match expand visited txt with
          | .ok (some v) => .ok (some v)
          | .ok none => expand visited key
          | .error e => .error e
        else expand visited key : Except RErr (Option (List Char))) with
      | .error e => .error e
      | .ok (some v) => .ok v
      | .ok none =>
        match fb with
        | some f => .ok f
        | none => c.handleUnresolvable key txt) := rfl

/-- Unfolding of `resolvePartCore` at a `NestedPlaceholderPart` with no
default parts. -/
theorem resolvePartCore_nested_none (expand) (c : Ctx) (visited) (txt : List Char)
    (kps : List Part) :
    resolvePartCore expand c visited (.nested txt kps none) =
      (match resolvePartsJoinCore expand c visited kps with
      | .error e => .error e
      | .ok resolvedKey =>
        match expand visited resolvedKey with
        | .error e => .error e
        | .ok (some v) => .ok v
        | .ok none => c.handleUnresolvable resolvedKey txt) := rfl

/-- Unfolding of `resolvePartCore` at a `NestedPlaceholderPart` with
default parts. -/
theorem resolvePartCore_nested_some (expand) (c : Ctx) (visited) (txt : List Char)
    (kps ds : List Part) :
    resolvePartCore expand c visited (.nested txt kps (some ds)) =
      (match resolvePartsJoinCore expand c visited kps with
      | .error e => .error e
      | .ok resolvedKey =>
        match expand visited resolvedKey with
        | .error e => .error e
        | .ok (some v) => .ok v
        | .ok none => resolvePartsJoinCore expand c visited ds) := rfl

/-- Unfolding of `resolvePartsJoinCore` at the empty list. -/
theorem resolvePartsJoinCore_nil (expand) (c : Ctx) (visited) :
    resolvePartsJoinCore expand c visited [] = .ok [] := rfl

/-- Unfolding of `resolvePartsJoinCore` at a cons. -/
theorem resolvePartsJoinCore_cons (expand) (c : Ctx) (visited) (p : Part)
    (rest : List Part) :
    resolvePartsJoinCore expand c visited (p :: rest) =
      (match resolvePartCore expand c visited p with
      | .error e => .error e
      | .ok s =>
        match resolvePartsJoinCore expand c visited rest with
        | .error e => .error e
        | .ok r => .ok (s ++ r)) := rfl

/-! Claims. -/

/-- C1: the claim says a per-call `False` override on a helper
constructed with `ignore_unresolvable_placeholders=True` makes that call
strict.  The code computes the effective flag with Python `or`
(`ignore_unresolvable_placeholders or self._ignore_unresolvable_placeholders`),
so `False or True` is `True`: the call stays non-strict and the
unresolvable placeholder `${bar}` is passed through verbatim instead of
raising, for every recursion budget.  This contradicts the declared
`bool | None = None` per-call parameter, whose `None` already encodes
"use the default": the code is the slip. -/
theorem c1_per_call_false_override_is_ignored :
    effectiveIgnore (some false) true = true ∧
    ∀ fuel : Nat,
      helperNS.replacePlaceholders (phWrap ("bar".data)) (fun _ => none) (some false) fuel
        = .ok (phWrap ("bar".data)) := by
  refine ⟨rfl, fun fuel => ?_⟩
  cases fuel <;> rfl

/-- C2 (counterexample): the claim says the contribution of a
`SimplePlaceholder(key, fallback)` is a function only of the key when
the key resolves.  The code first tries the raw body text as a lookup
name when it differs from the key: the two resolvers below agree on the
key `a` (both map it to `Y`), yet `${a:b}` resolves to `X` under the
first (which also maps the raw text `a:b`) and to `Y` under the second. -/
theorem c2_counterexample :
    resolverRawAndKey ("a".data) = resolverKeyOnly ("a".data)
    ∧ helperSep.replacePlaceholders (phWrap ("a:b".data)) resolverRawAndKey none 5
        = .ok ("X".data)
    ∧ helperSep.replacePlaceholders (phWrap ("a:b".data)) resolverKeyOnly none 5
        = .ok ("Y".data)
    ∧ ("X".data : List Char) ≠ "Y".data := by decide

/-- C2 (amended): resolving `SimplePlaceholder(key, fallback)` first
tries `resolve_recursively(raw_text)` when the raw body text differs
from the key; when that raw-text attempt is absent (or raw text and key
coincide), the contribution is exactly the recursively expanded value of
the key whenever the key resolves. -/
theorem c2_amended_key_lookup (c : Ctx) (visited : List (List Char)) (fuel : Nat)
    (txt key : List Char) (fb : Option (List Char)) (v : List Char)
    (hraw : txt = key ∨ c.resolveRecursively fuel visited txt = .ok none)
    (hkey : c.resolveRecursively fuel visited key = .ok (some v)) :
    c.resolvePart visited fuel (.simple txt key fb) = .ok v := by
  unfold Ctx.resolvePart
  rw [resolvePartCore_simple]
  rcases hraw with h | h
  · subst h
    simp [hkey]
  · by_cases he : txt = key
    · subst he
      simp [hkey]
    · simp [he, h, hkey]

/-- C2 witness: the amended theorem applied at `${a:b}` against the
key-only resolver. -/
theorem c2_amended_key_lookup_witness :
    ((("a:b".data : List Char) = "a".data ∨
        (Ctx.mk helperSep true resolverKeyOnly).resolveRecursively 5 [] ("a:b".data)
          = .ok none)
      ∧ (Ctx.mk helperSep true resolverKeyOnly).resolveRecursively 5 [] ("a".data)
          = .ok (some ("Y".data)))
    ∧ (Ctx.mk helperSep true resolverKeyOnly).resolvePart [] 5
        (.simple ("a:b".data) ("a".data) (some ("b".data))) = .ok ("Y".data) :=
  ⟨⟨Or.inr (by decide), by decide⟩,
    c2_amended_key_lookup _ [] 5 _ _ _ _ (Or.inr (by decide)) (by decide)⟩

/-- C3 (counterexample): the claim says the value attached at the
failure site is the placeholder's raw text.  Resolving `${b${inner}}`
strictly with `{inner: "ar"}` fails on the resolved key `bar`, and the
attached value is `${bar}` — the reported key re-wrapped in the
delimiters — which is neither the raw body text `b${inner}` nor the
delimited raw text `${b${inner}}`. -/
theorem c3_counterexample :
    helperStrict.replacePlaceholders (phWrap ("b".data ++ phWrap ("inner".data)))
        resolverInner none 5
      = .error (.placeholderError
          ⟨couldNotResolveMsg ("bar".data), "bar".data,
            [phWrap ("bar".data), phWrap ("b".data ++ phWrap ("inner".data))]⟩)
    ∧ phWrap ("bar".data) ≠ "b".data ++ phWrap ("inner".data)
    ∧ phWrap ("bar".data) ≠ phWrap ("b".data ++ phWrap ("inner".data)) := by decide

/-- C3 (amended): under the strict policy, when neither the raw text
nor the key resolves and no fallback applies, the raised error carries
the reported key and, exactly when the reported key differs from the
part's body text, `prefix + key + suffix` (the key re-wrapped in the
configured delimiters) as the offending value — both for simple parts
and for nested parts (where the reported key is the resolved key). -/
theorem c3_amended_error_value :
    (∀ (c : Ctx) (visited : List (List Char)) (fuel : Nat) (txt key : List Char),
      c.resolver txt = none → c.resolver key = none → c.ign = false →
      c.resolvePart visited fuel (.simple txt key none)
        = .error (.placeholderError ⟨couldNotResolveMsg key, key,
            if key ≠ txt then [c.h.pre ++ key ++ c.h.suf] else []⟩))
    ∧ (∀ (c : Ctx) (visited : List (List Char)) (fuel : Nat) (txt rk : List Char)
        (kps : List Part),
      resolvePartsJoinCore (fun vs k => c.resolveRecursively fuel vs k) c visited kps
          = .ok rk →
      c.resolver rk = none → c.ign = false →
      c.resolvePart visited fuel (.nested txt kps none)
        = .error (.placeholderError ⟨couldNotResolveMsg rk, rk,
            if rk ≠ txt then [c.h.pre ++ rk ++ c.h.suf] else []⟩)) := by
  constructor
  · intro c visited fuel txt key htxt hkey hign
    have hrrt : c.resolveRecursively fuel visited txt = .ok none := by
      unfold Ctx.resolveRecursively; rw [htxt]
    have hrrk : c.resolveRecursively fuel visited key = .ok none := by
      unfold Ctx.resolveRecursively; rw [hkey]
    unfold Ctx.resolvePart
    rw [resolvePartCore_simple]
    unfold Ctx.handleUnresolvable
    by_cases he : txt = key
    · subst he
      simp [hrrk, hign]
    · simp [he, hrrt, hrrk, hign]
  · intro c visited fuel txt rk kps hkps hrk hign
    have hrrk : c.resolveRecursively fuel visited rk = .ok none := by
      unfold Ctx.resolveRecursively; rw [hrk]
    unfold Ctx.resolvePart
    rw [resolvePartCore_nested_none, hkps]
    unfold Ctx.handleUnresolvable
    simp [hrrk, hign]

/-- C3 witness: the amended theorem applied at a simple part with
`txt = "t"` and `key = "k"` and at a nested part with key parts
resolving to `bar`, under an empty strict context. -/
theorem c3_amended_error_value_witness :
    ((Ctx.mk helperStrict false (fun _ => none)).resolver ("t".data) = none
      ∧ (Ctx.mk helperStrict false (fun _ => none)).resolver ("k".data) = none
      ∧ (Ctx.mk helperStrict false (fun _ => none)).ign = false
      ∧ (Ctx.mk helperStrict false (fun _ => none)).resolvePart [] 5
          (.simple ("t".data) ("k".data) none)
          = .error (.placeholderError ⟨couldNotResolveMsg ("k".data), "k".data,
              if ("k".data : List Char) ≠ "t".data
              then [helperStrict.pre ++ "k".data ++ helperStrict.suf] else []⟩))
    ∧ (Ctx.mk helperStrict false (fun _ => none)).resolvePart [] 5
        (.nested ("b".data) [Part.text ("bar".data)] none)
        = .error (.placeholderError ⟨couldNotResolveMsg ("bar".data), "bar".data,
            if ("bar".data : List Char) ≠ "b".data
            then [helperStrict.pre ++ "bar".data ++ helperStrict.suf] else []⟩) :=
  ⟨⟨by decide, by decide, by decide,
      c3_amended_error_value.1 _ [] 5 _ _ (by decide) (by decide) (by decide)⟩,
    c3_amended_error_value.2 _ [] 5 _ _ _ (by decide) (by decide) (by decide)⟩

/-- C4: with prefix `${`, suffix `}` and the strict policy, resolving
`${pL}` against `{pL: "${pR}", pR: "${pL}"}` raises an error whose
rendered message is exactly
`Circular placeholder reference 'pL' in value "${pL}" <-- "${pR}" <-- "${pL}"`,
for every recursion budget of at least 3. -/
theorem c4_circular_reference_message :
    (∀ fuel : Nat,
      helperStrict.replacePlaceholders (phWrap ("pL".data)) resolverCirc none (fuel + 3)
        = .error (.placeholderError
            ⟨circularRefMsg ("pL".data), "pL".data,
              [phWrap ("pL".data), phWrap ("pR".data), phWrap ("pL".data)]⟩))
    ∧ PRErr.message
        ⟨circularRefMsg ("pL".data), "pL".data,
          [phWrap ("pL".data), phWrap ("pR".data), phWrap ("pL".data)]⟩
        = "Circular placeholder reference ".data ++ [squote, 'p', 'L', squote]
          ++ " in value ".data
          ++ [dquote, '$', lbrace, 'p', 'L', rbrace, dquote] ++ " <-- ".data
          ++ [dquote, '$', lbrace, 'p', 'R', rbrace, dquote] ++ " <-- ".data
          ++ [dquote, '$', lbrace, 'p', 'L', rbrace, dquote] :=
  ⟨fun _ => rfl, by decide⟩

/-- C5: the default branch is lazy.  For every resolver `f` that maps
`one` to `1`, resolving `${one:or${two}}` returns `1`; since the result
is the same for all such resolvers however they differ elsewhere (in
particular on `two`), the default branch and the lookup of `two` are
never evaluated. -/
theorem c5_default_branch_lazy (f : List Char → Option (List Char)) (ign : Option Bool)
    (fuel : Nat) (hf : f ("one".data) = some ("1".data)) :
    helperSep.replacePlaceholders (phWrap ("one:or".data ++ phWrap ("two".data))) f ign
        (fuel + 1)
      = .ok ("1".data) := by
  have hp : helperSep.parseTop (phWrap ("one:or".data ++ phWrap ("two".data)))
      = [Part.nested ("one:or".data ++ phWrap ("two".data))
          [Part.text ("one".data)]
          (some [Part.text ("or".data), Part.simple ("two".data) ("two".data) none])] := rfl
  have h1 : helperSep.parseTop ("1".data) = [Part.text ("1".data)] := rfl
  have hone : (Ctx.mk helperSep (effectiveIgnore ign helperSep.ignoreUnresolvable)
        f).resolveRecursively (fuel + 1) [] ("one".data) = .ok (some ("1".data)) := by
    unfold Ctx.resolveRecursively
    simp [hf, h1, Part.isText, Part.txt]
  simp only [Helper.replacePlaceholders, Ctx.resolveParts, hp, resolvePartsCore]
  rw [resolvePartsJoinCore_cons, resolvePartCore_nested_some, resolvePartsJoinCore_cons,
    resolvePartCore_text, resolvePartsJoinCore_nil]
  simp [hone]

/-- C5 witness: the laziness theorem applied at the resolver that maps
only `one`. -/
theorem c5_default_branch_lazy_witness :
    ((fun n => if n = ("one".data : List Char) then some ("1".data) else none)
        ("one".data) = some ("1".data))
    ∧ helperSep.replacePlaceholders (phWrap ("one:or".data ++ phWrap ("two".data)))
        (fun n => if n = ("one".data : List Char) then some ("1".data) else none) none 1
      = .ok ("1".data) :=
  ⟨by decide,
    c5_default_branch_lazy
      (fun n => if n = ("one".data : List Char) then some ("1".data) else none) none 0
      (by decide)⟩

/-- C7 (counterexample): the claim says that whenever a prefix
occurrence is immediately preceded by the escape character, the escape
character is consumed (not emitted).  For `a\${b` — an escaped prefix
with no matching suffix — the code takes the unmatched-prefix branch
instead: the output keeps the backslash, so the escape character is
emitted, not consumed. -/
theorem c7_counterexample :
    helperEsc.replacePlaceholders ('a' :: bslash :: '$' :: lbrace :: ['b'])
        (fun _ => none) none 1
      = .ok ('a' :: bslash :: '$' :: lbrace :: ['b'])
    ∧ ('a' :: bslash :: '$' :: lbrace :: ['b']) ≠ 'a' :: '$' :: lbrace :: ['b'] := by
  decide

/-- C7 (amended): when a prefix occurrence has a matching suffix and is
immediately preceded by the escape character, the scan emits the text up
to but excluding the escape character, emits the prefix itself as
literal, creates no placeholder part (the body parser is not invoked,
so no lookup can be queried for the would-be key), and resumes after
the prefix; concretely, `\${firstName}` with escape `\` resolves to
`${firstName}` for every resolver, which is therefore never queried. -/
theorem c7_escaped_occurrence :
    (∀ (h : Helper) (pb : List Char → List Part) (value : List Char)
        (lf position start : Nat) (parts : List Part) (endIdx : Nat),
      h.nextValidEnd value start = some endIdx →
      h.isEscaped value start = true →
      parseLoop h pb value (lf + 1) position (some start) parts
        = parseLoop h pb value lf (start + h.pre.length)
            (findFrom h.pre value (start + h.pre.length))
            (addTextRev value start (start + h.pre.length)
              (addTextRev value position (start - 1) parts)))
    ∧ (∀ (f : List Char → Option (List Char)) (ign : Option Bool) (fuel : Nat),
      helperEsc.replacePlaceholders (bslash :: phWrap ("firstName".data)) f ign fuel
        = .ok (phWrap ("firstName".data))) := by
  constructor
  · intro h pb value lf position start parts endIdx hend hesc
    simp [parseLoop, hend, hesc]
  · intro f ign fuel
    rfl

/-- C7 witness: the amended step lemma applied at `\${firstName}` with
the escaped prefix at index 1, and the concrete resolution with the
empty resolver. -/
theorem c7_escaped_occurrence_witness :
    (helperEsc.nextValidEnd (bslash :: phWrap ("firstName".data)) 1 = some 12
      ∧ helperEsc.isEscaped (bslash :: phWrap ("firstName".data)) 1 = true
      ∧ parseLoop helperEsc (fun _ => []) (bslash :: phWrap ("firstName".data)) 3 0
          (some 1) []
        = parseLoop helperEsc (fun _ => []) (bslash :: phWrap ("firstName".data)) 2
            (1 + helperEsc.pre.length)
            (findFrom helperEsc.pre (bslash :: phWrap ("firstName".data))
              (1 + helperEsc.pre.length))
            (addTextRev (bslash :: phWrap ("firstName".data)) 1
              (1 + helperEsc.pre.length)
              (addTextRev (bslash :: phWrap ("firstName".data)) 0 0 [])))
    ∧ helperEsc.replacePlaceholders (bslash :: phWrap ("firstName".data))
        (fun _ => none) none 0 = .ok (phWrap ("firstName".data)) :=
  ⟨⟨by decide, by decide,
      c7_escaped_occurrence.1 helperEsc (fun _ => []) _ 2 0 1 [] 12 (by decide) (by decide)⟩,
    c7_escaped_occurrence.2 (fun _ => none) none 0⟩

/-- Appending on the left preserves being a suffix. -/
theorem isSuffix_append_left {α : Type} (s t u : List α) (h : s <:+ t) : s <:+ u ++ t := by
  obtain ⟨w, hw⟩ := h
  exact ⟨u ++ w, by rw [List.append_assoc, hw]⟩

/-- The quoted rendering of a value chain ends with the quoted last
entry. -/
theorem quotedChain_concat_suffix : ∀ (l : List (List Char)) (v : List Char),
    quoteVal v <:+ quotedChain (l ++ [v])
  | [], v => by simp [quotedChain]
  | [x], v =>
    isSuffix_append_left _ _ (quoteVal x ++ " <-- ".data) (by simp [quotedChain])
  | x :: y :: rest, v =>
    isSuffix_append_left _ _ (quoteVal x ++ " <-- ".data)
      (quotedChain_concat_suffix (y :: rest) v)

/-- C10: whenever `replace_placeholders` raises, the original top-level
input is the last entry of the error's value chain (the outermost
`resolve_parts` always appends it), and the rendered message therefore
ends with the full input as its final quoted value. -/
theorem c10_input_last_in_chain (h : Helper) (value : List Char)
    (f : List Char → Option (List Char)) (ign : Option Bool) (fuel : Nat) (e : PRErr)
    (herr : h.replacePlaceholders value f ign fuel = .error (.placeholderError e)) :
    e.values.getLast? = some value ∧ quoteVal value <:+ e.message := by
  simp only [Helper.replacePlaceholders, Ctx.resolveParts, resolvePartsCore] at herr
  split at herr
  · exact absurd herr (by simp)
  · rename_i err heq
    cases err with
    | fuelOut => simp [RErr.addValue] at herr
    | placeholderError e0 =>
      simp only [RErr.addValue, Except.error.injEq, RErr.placeholderError.injEq] at herr
      subst herr
      constructor
      · simp [PRErr.withValue]
      · show quoteVal value <:+ (e0.withValue value).message
        simp only [PRErr.withValue, PRErr.message, buildMessage]
        rw [if_neg (by simp)]
        exact isSuffix_append_left _ _ _ (quotedChain_concat_suffix e0.values value)

/-- C10 witness: the chain theorem applied at `X${bogus}Z` under the
strict policy with the empty resolver; the rendered message is
`Could not resolve placeholder 'bogus' in value "X${bogus}Z"`. -/
theorem c10_input_last_in_chain_witness :
    helperStrict.replacePlaceholders ("X".data ++ phWrap ("bogus".data) ++ "Z".data)
        (fun _ => none) none 0
      = .error (.placeholderError ⟨couldNotResolveMsg ("bogus".data), "bogus".data,
          ["X".data ++ phWrap ("bogus".data) ++ "Z".data]⟩)
    ∧ ((⟨couldNotResolveMsg ("bogus".data), "bogus".data,
          ["X".data ++ phWrap ("bogus".data) ++ "Z".data]⟩ : PRErr).values.getLast?
        = some ("X".data ++ phWrap ("bogus".data) ++ "Z".data)
      ∧ quoteVal ("X".data ++ phWrap ("bogus".data) ++ "Z".data)
          <:+ (⟨couldNotResolveMsg ("bogus".data), "bogus".data,
                ["X".data ++ phWrap ("bogus".data) ++ "Z".data]⟩ : PRErr).message) :=
  ⟨by decide, c10_input_last_in_chain helperStrict _ (fun _ => none) none 0 _ (by decide)⟩

/-- Bridge between the executable `isPrefixOf` and the `IsPrefix`
relation. -/
theorem isPrefixOf_true_iff (l1 l2 : List Char) : l1.isPrefixOf l2 = true ↔ l1 <+: l2 :=
  List.isPrefixOf_iff_prefix

/-- Facts recovered from a successful scan of `findFromAux`: the found
index is at or after the scan origin and the pattern occurs there. -/
theorem findFromAux_some_facts (pat : List Char) :
    ∀ (rem : List Char) (j k : Nat), findFromAux pat rem j = some k →
      j ≤ k ∧ pat <+: rem.drop (k - j) := by
  intro rem
  induction rem with
  | nil =>
    intro j k hjk
    unfold findFromAux at hjk
    by_cases hp : pat.isPrefixOf [] = true
    · rw [if_pos hp] at hjk
      injection hjk with hjk
      subst hjk
      exact ⟨le_refl _, by simpa using (isPrefixOf_true_iff _ _).mp hp⟩
    · rw [if_neg hp] at hjk
      exact absurd hjk (by simp)
  | cons c tl ih =>
    intro j k hjk
    unfold findFromAux at hjk
    by_cases hp : pat.isPrefixOf (c :: tl) = true
    · rw [if_pos hp] at hjk
      injection hjk with hjk
      subst hjk
      exact ⟨le_refl _, by simpa using (isPrefixOf_true_iff _ _).mp hp⟩
    · rw [if_neg hp] at hjk
      obtain ⟨h1, h2⟩ := ih (j + 1) k hjk
      refine ⟨by omega, ?_⟩
      have he : k - j = (k - (j + 1)) + 1 := by omega
      rw [he, List.drop_succ_cons]
      exact h2

/-- Facts recovered from a successful `findFrom`. -/
theorem findFrom_some_facts (pat value : List Char) (i j : Nat)
    (hj : findFrom pat value i = some j) : i ≤ j ∧ pat <+: value.drop j := by
  obtain ⟨h1, h2⟩ := findFromAux_some_facts pat (value.drop i) i j hj
  refine ⟨h1, ?_⟩
  rw [List.drop_drop] at h2
  have he : i + (j - i) = j := by omega
  rwa [he] at h2

/-- A found occurrence is an infix occurrence. -/
theorem infix_of_findFrom_some (pat value : List Char) (i j : Nat)
    (hj : findFrom pat value i = some j) : pat <:+: value := by
  obtain ⟨-, hpre⟩ := findFrom_some_facts pat value i j hj
  obtain ⟨t, ht⟩ := hpre
  exact ⟨value.take j, t, by rw [List.append_assoc, ht, List.take_append_drop]⟩

/-- When the pattern occurs nowhere in the text, the scan finds
nothing. -/
theorem findFrom_eq_none_of_no_occurrence (pat value : List Char) (i : Nat)
    (h : ¬ pat <:+: value) : findFrom pat value i = none := by
  cases hf : findFrom pat value i with
  | none => rfl
  | some j => exact absurd (infix_of_findFrom_some pat value i j hf) h

/-- A text that parses to a single literal resolves to itself, with no
error, under every resolver and policy. -/
theorem replace_ok_of_parse_text (h : Helper) (value : List Char)
    (f : List Char → Option (List Char)) (ign : Option Bool) (fuel : Nat)
    (hp : h.parseTop value = [Part.text value]) :
    h.replacePlaceholders value f ign fuel = .ok value := by
  simp only [Helper.replacePlaceholders, Ctx.resolveParts, hp, resolvePartsCore]
  rw [resolvePartsJoinCore_cons, resolvePartCore_text, resolvePartsJoinCore_nil]
  simp

/-- C8: for every text with no occurrence of the configured prefix,
every resolver, every override and every recursion budget,
`replace_placeholders` returns the text unchanged and never raises. -/
theorem c8_literal_identity (h : Helper) (value : List Char)
    (f : List Char → Option (List Char)) (ign : Option Bool) (fuel : Nat)
    (hpre : ¬ h.pre <:+: value) :
    h.replacePlaceholders value f ign fuel = .ok value := by
  have hfind : findFrom h.pre value 0 = none := findFrom_eq_none_of_no_occurrence _ _ _ hpre
  apply replace_ok_of_parse_text
  simp [Helper.parseTop, Helper.parse, hfind]

/-- C8 witness: the identity theorem applied to `hello` under the
strict policy with the empty resolver. -/
theorem c8_literal_identity_witness :
    ¬ (helperStrict.pre <:+: ("hello".data : List Char))
    ∧ helperStrict.replacePlaceholders ("hello".data) (fun _ => none) none 0
        = .ok ("hello".data) :=
  ⟨by decide, c8_literal_identity helperStrict ("hello".data) (fun _ => none) none 0
    (by decide)⟩

/-- A prefix occurrence in a dropped tail is an infix occurrence. -/
theorem isPrefixOf_drop_isInfix (pat value : List Char) (i : Nat)
    (hp : pat.isPrefixOf (value.drop i) = true) : pat <:+: value := by
  obtain ⟨t, ht⟩ := (isPrefixOf_true_iff _ _).mp hp
  exact ⟨value.take i, t, by rw [List.append_assoc, ht, List.take_append_drop]⟩

/-- When the suffix occurs nowhere in the text, the matching-end scan
finds nothing, from any position, depth and fuel. -/
theorem nextValidEndAux_eq_none (h : Helper) (value : List Char)
    (hsuf : ¬ h.suf <:+: value) :
    ∀ (fz index depth : Nat), nextValidEndAux h value index depth fz = none := by
  intro fz
  induction fz with
  | zero => intro index depth; rfl
  | succ fz ih =>
    intro index depth
    unfold nextValidEndAux
    by_cases hlt : index < value.length
    · rw [if_pos hlt]
      have hs : ¬ h.suf.isPrefixOf (value.drop index) = true := by
        intro hc
        exact hsuf (isPrefixOf_drop_isInfix _ _ _ hc)
      rw [if_neg hs]
      split
      · exact ih _ _
      · exact ih _ _
    · rw [if_neg hlt]

/-- When the suffix occurs nowhere in the text, no prefix occurrence has
a matching end. -/
theorem nextValidEnd_eq_none (h : Helper) (value : List Char) (start : Nat)
    (hsuf : ¬ h.suf <:+: value) : h.nextValidEnd value start = none :=
  nextValidEndAux_eq_none h value hsuf _ _ _

/-- With no further prefix occurrence the loop appends the trailing text
and stops, whatever fuel remains. -/
theorem parseLoop_none (h : Helper) (pb : List Char → List Part) (value : List Char)
    (lf position : Nat) (rparts : List Part) :
    parseLoop h pb value lf position none rparts
      = addTextRev value position value.length rparts := by
  cases lf <;> rfl

/-- One step of the parse loop at an unmatched prefix occurrence: the
text through the end of the prefix is emitted as literal (no placeholder
part is created, and the body parser is not invoked) and scanning
continues after the prefix. -/
theorem parseLoop_unmatched_step (h : Helper) (pb : List Char → List Part)
    (value : List Char) (lf position start : Nat) (parts : List Part)
    (hend : h.nextValidEnd value start = none) :
    parseLoop h pb value (lf + 1) position (some start) parts
      = parseLoop h pb value lf (start + h.pre.length)
          (findFrom h.pre value (start + h.pre.length))
          (addTextRev value position (start + h.pre.length) parts) := by
  simp [parseLoop, hend]

/-- Appending the next slice of the text to a single-literal accumulator
keeps it a single literal covering the longer take. -/
theorem addTextRev_textAcc (value : List Char) (p q : Nat) (hpq : p ≤ q)
    (hq : q ≤ value.length) :
    addTextRev value p q (textAcc (value.take p)) = textAcc (value.take q) := by
  by_cases hqp : q = p
  · subst hqp
    unfold addTextRev
    rw [if_neg (by omega : ¬ q < q)]
    have ht : slice value q q = [] := by
      have hl : (slice value q q).length = 0 := by
        unfold slice
        rw [List.length_drop, List.length_take, Nat.min_eq_left hq]
        omega
      simpa [List.length_eq_zero] using hl
    rw [if_pos ht]
  · have hpq' : p < q := by omega
    have hts : (slice value p q).length = q - p := by
      unfold slice
      rw [List.length_drop, List.length_take, Nat.min_eq_left hq]
    have ht : slice value p q ≠ [] := by
      intro hc
      rw [hc] at hts
      simp at hts
      omega
    unfold addTextRev
    rw [if_neg (by omega : ¬ q < p), if_neg ht]
    have htake : value.take p ++ slice value p q = value.take q := by
      have h1 : (value.take q).take p = value.take p := by
        rw [List.take_take]
        congr 1
        omega
      calc value.take p ++ slice value p q
          = (value.take q).take p ++ (value.take q).drop p := by rw [h1]; rfl
        _ = value.take q := List.take_append_drop _ _
    have hqne : value.take q ≠ [] := by
      intro hc
      have hlen := congrArg List.length hc
      rw [List.length_take, Nat.min_eq_left hq] at hlen
      simp at hlen
      omega
    by_cases hp0 : value.take p = []
    · rw [show textAcc (value.take p) = [] from if_pos hp0]
      show [Part.text (slice value p q)] = textAcc (value.take q)
      rw [show slice value p q = value.take q from by rw [← htake, hp0]; rfl]
      exact (if_neg hqne).symm
    · rw [show textAcc (value.take p) = [Part.text (value.take p)] from if_neg hp0]
      show [Part.text (value.take p ++ slice value p q)] = textAcc (value.take q)
      rw [htake]
      exact (if_neg hqne).symm

/-- In a text with no suffix occurrence, the parse loop turns everything
into one literal: every prefix occurrence is unmatched and is emitted
verbatim. -/
theorem parseLoop_noSuffix (h : Helper) (pb : List Char → List Part) (value : List Char)
    (hpre : h.pre ≠ []) (hsuf : ¬ h.suf <:+: value) :
    ∀ (lf position start : Nat),
      findFrom h.pre value position = some start →
      value.length - position < lf →
      parseLoop h pb value lf position (some start) (textAcc (value.take position))
        = [Part.text value] := by
  intro lf
  induction lf with
  | zero => intro position start _ hb; omega
  | succ lf ih =>
    intro position start hfind hbound
    obtain ⟨hps, hpref⟩ := findFrom_some_facts _ _ _ _ hfind
    have hplen : 1 ≤ h.pre.length := List.length_pos.mpr hpre
    have hocclen : start + h.pre.length ≤ value.length := by
      have hle := hpref.length_le
      rw [List.length_drop] at hle
      omega
    have hnse : h.nextValidEnd value start = none := nextValidEnd_eq_none h value start hsuf
    rw [parseLoop_unmatched_step h pb value lf position start _ hnse]
    rw [addTextRev_textAcc value position (start + h.pre.length) (by omega) hocclen]
    cases hf2 : findFrom h.pre value (start + h.pre.length) with
    | none =>
      rw [parseLoop_none]
      rw [addTextRev_textAcc value (start + h.pre.length) value.length hocclen (le_refl _)]
      rw [List.take_length]
      have hvlen : 1 ≤ value.length := by omega
      have hvne : value ≠ [] := by
        intro hc
        rw [hc] at hvlen
        simp at hvlen
      exact if_neg hvne
    | some start2 =>
      obtain ⟨hps2, hpref2⟩ := findFrom_some_facts _ _ _ _ hf2
      have h2 : start2 + h.pre.length ≤ value.length := by
        have hle := hpref2.length_le
        rw [List.length_drop] at hle
        omega
      exact ih (start + h.pre.length) start2 hf2 (by omega)

/-- C6: parsing is total and malformed delimiter syntax never raises: a
prefix occurrence with no matching suffix is emitted as plain literal
text and scanning continues after it (the step lemma, first conjunct),
and for a non-empty prefix, a text in which the suffix never occurs —
so every prefix occurrence is unmatched — resolves to itself with no
error under every resolver and policy (second conjunct). -/
theorem c6_unmatched_prefix_literal :
    (∀ (h : Helper) (pb : List Char → List Part) (value : List Char)
        (lf position start : Nat) (parts : List Part),
      h.nextValidEnd value start = none →
      parseLoop h pb value (lf + 1) position (some start) parts
        = parseLoop h pb value lf (start + h.pre.length)
            (findFrom h.pre value (start + h.pre.length))
            (addTextRev value position (start + h.pre.length) parts))
    ∧ (∀ (h : Helper) (value : List Char) (f : List Char → Option (List Char))
        (ign : Option Bool) (fuel : Nat),
      h.pre ≠ [] → ¬ h.suf <:+: value →
      h.replacePlaceholders value f ign fuel = .ok value) := by
  constructor
  · intro h pb value lf position start parts hend
    exact parseLoop_unmatched_step h pb value lf position start parts hend
  · intro h value f ign fuel hpre hsuf
    apply replace_ok_of_parse_text
    cases hf : findFrom h.pre value 0 with
    | none => simp [Helper.parseTop, Helper.parse, hf]
    | some s0 =>
      simp only [Helper.parseTop, Helper.parse, hf]
      rw [show ([] : List Part) = textAcc (value.take 0) from rfl]
      rw [parseLoop_noSuffix h _ value hpre hsuf (value.length + 1) 0 s0 hf (by omega)]
      rfl

/-- C6 witness: the step lemma applied to the unmatched occurrence in
`${ab`, and the identity conjunct applied to `a${b` under the strict
policy. -/
theorem c6_unmatched_prefix_literal_witness :
    (helperNS.nextValidEnd ('$' :: lbrace :: ['a', 'b']) 0 = none
      ∧ parseLoop helperNS (fun _ => []) ('$' :: lbrace :: ['a', 'b']) 3 0 (some 0) []
        = parseLoop helperNS (fun _ => []) ('$' :: lbrace :: ['a', 'b']) 2
            (0 + helperNS.pre.length)
            (findFrom helperNS.pre ('$' :: lbrace :: ['a', 'b'])
              (0 + helperNS.pre.length))
            (addTextRev ('$' :: lbrace :: ['a', 'b']) 0 (0 + helperNS.pre.length) []))
    ∧ (helperStrict.pre ≠ []
      ∧ ¬ helperStrict.suf <:+: ('a' :: '$' :: lbrace :: ['b'])
      ∧ helperStrict.replacePlaceholders ('a' :: '$' :: lbrace :: ['b'])
          (fun _ => none) none 0 = .ok ('a' :: '$' :: lbrace :: ['b'])) :=
  ⟨⟨by decide, c6_unmatched_prefix_literal.1 helperNS (fun _ => [])
      ('$' :: lbrace :: ['a', 'b']) 2 0 0 [] (by decide)⟩,
    ⟨by decide, by decide,
      c6_unmatched_prefix_literal.2 helperStrict ('a' :: '$' :: lbrace :: ['b'])
        (fun _ => none) none 0 (by decide) (by decide)⟩⟩


theorem partOkB_text (t : List Char) : partOkB (.text t) = true := rfl

theorem partOkB_simple (txt key : List Char) (fb : Option (List Char)) :
    partOkB (.simple txt key fb) = true := rfl

theorem partOkB_nested_none (txt : List Char) (kps : List Part) :
    partOkB (.nested txt kps none) = (noAdjB kps && listPartsOkB kps && true) := rfl

theorem partOkB_nested_some (txt : List Char) (kps ds : List Part) :
    partOkB (.nested txt kps (some ds))
      = (noAdjB kps && listPartsOkB kps && (noAdjB ds && listPartsOkB ds)) := rfl

theorem listPartsOkB_nil : listPartsOkB [] = true := rfl

theorem listPartsOkB_cons (p : Part) (rest : List Part) :
    listPartsOkB (p :: rest) = (partOkB p && listPartsOkB rest) := rfl

theorem listPartsOkB_append (l1 l2 : List Part) :
    listPartsOkB (l1 ++ l2) = (listPartsOkB l1 && listPartsOkB l2) := by
  induction l1 with
  | nil => simp [listPartsOkB_nil]
  | cons p rest ih => simp [listPartsOkB_cons, ih, Bool.and_assoc]

theorem listPartsOkB_reverse (l : List Part) : listPartsOkB l.reverse = listPartsOkB l := by
  induction l with
  | nil => rfl
  | cons p rest ih =>
    rw [List.reverse_cons, listPartsOkB_append, listPartsOkB_cons, listPartsOkB_cons,
      listPartsOkB_nil, ih]
    cases partOkB p <;> cases listPartsOkB rest <;> rfl

theorem noAdjB_cons (x : Part) (l : List Part) :
    noAdjB (x :: l) = (!(x.isText && headIsText l) && noAdjB l) := by
  cases l with
  | nil => simp [noAdjB, headIsText]
  | cons q rest => rfl

theorem noAdjB_iff_chain : ∀ l : List Part,
    noAdjB l = true ↔ List.Chain' (fun a b => a.isText = false ∨ b.isText = false) l
  | [] => by simp [noAdjB]
  | [x] => by simp [noAdjB]
  | x :: q :: rest => by
    rw [List.chain'_cons,
      show noAdjB (x :: q :: rest) = (!(x.isText && q.isText) && noAdjB (q :: rest)) from rfl,
      ← noAdjB_iff_chain (q :: rest)]
    cases hx : x.isText <;> cases hq : q.isText <;> simp [hx, hq]

theorem noAdjB_reverse (l : List Part) : noAdjB l.reverse = noAdjB l := by
  by_cases hl : noAdjB l = true
  · have hc := (noAdjB_iff_chain l).mp hl
    have hr : List.Chain' (fun a b : Part => a.isText = false ∨ b.isText = false) l.reverse :=
      List.chain'_reverse.mpr (hc.imp fun a b hab => hab.symm)
    rw [hl, (noAdjB_iff_chain l.reverse).mpr hr]
  · have hl' : noAdjB l = false := by revert hl; cases noAdjB l <;> simp
    rw [hl']
    by_contra hne
    have hrt : noAdjB l.reverse = true := by revert hne; cases noAdjB l.reverse <;> simp
    have hc := (noAdjB_iff_chain l.reverse).mp hrt
    have hcl : List.Chain' (fun a b : Part => a.isText = false ∨ b.isText = false) l := by
      have := List.chain'_reverse.mp hc
      exact this.imp fun a b hab => hab.symm
    exact hl ((noAdjB_iff_chain l).mpr hcl)

theorem noAdjB_append_split (l1 l2 : List Part) (hsp : noAdjB (l1 ++ l2) = true) :
    noAdjB l1 = true ∧ noAdjB l2 = true := by
  induction l1 with
  | nil => exact ⟨rfl, by simpa using hsp⟩
  | cons x xs ih =>
    rw [List.cons_append, noAdjB_cons] at hsp
    obtain ⟨hpair, hrest⟩ := (Bool.and_eq_true _ _).mp hsp
    obtain ⟨h1, h2⟩ := ih hrest
    refine ⟨?_, h2⟩
    rw [noAdjB_cons]
    cases xs with
    | nil => simp [headIsText, noAdjB]
    | cons z zs =>
      have hh : headIsText ((z :: zs) ++ l2) = headIsText (z :: zs) := rfl
      rw [List.cons_append] at hpair
      rw [show headIsText (z :: zs) = headIsText (z :: (zs ++ l2)) from rfl]
      exact (Bool.and_eq_true _ _).mpr ⟨hpair, h1⟩

theorem noAdjB_append_congr (a b : Part) (hab : a.isText = b.isText) :
    ∀ (xs ys : List Part), noAdjB (xs ++ a :: ys) = noAdjB (xs ++ b :: ys) := by
  intro xs
  induction xs with
  | nil =>
    intro ys
    rw [List.nil_append, List.nil_append, noAdjB_cons, noAdjB_cons, hab]
  | cons x xs ih =>
    intro ys
    rw [List.cons_append, List.cons_append, noAdjB_cons, noAdjB_cons, ih ys]
    have hh : headIsText (xs ++ a :: ys) = headIsText (xs ++ b :: ys) := by
      cases xs with
      | nil => simpa [headIsText] using hab
      | cons z zs => rfl
    rw [hh]

theorem addTextRev_ok (value : List Char) (s e : Nat) (rparts : List Part)
    (h1 : noAdjB rparts = true) (h2 : listPartsOkB rparts = true) :
    noAdjB (addTextRev value s e rparts) = true
      ∧ listPartsOkB (addTextRev value s e rparts) = true := by
  unfold addTextRev
  by_cases hse : e < s
  · rw [if_pos hse]; exact ⟨h1, h2⟩
  · rw [if_neg hse]
    by_cases ht : slice value s e = []
    · rw [if_pos ht]; exact ⟨h1, h2⟩
    · rw [if_neg ht]
      cases rparts with
      | nil => exact ⟨rfl, rfl⟩
      | cons p rest =>
        cases p with
        | text t0 =>
          constructor
          · rw [noAdjB_cons] at h1 ⊢
            exact h1
          · rw [listPartsOkB_cons] at h2 ⊢
            exact h2
        | simple txt key fb =>
          constructor
          · rw [noAdjB_cons]
            simp only [headIsText, Part.isText, Bool.and_false, Bool.not_false,
              Bool.true_and]
            exact h1
          · rw [listPartsOkB_cons, partOkB_text]
            simpa using h2
        | nested txt kps dps =>
          constructor
          · rw [noAdjB_cons]
            simp only [headIsText, Part.isText, Bool.and_false, Bool.not_false,
              Bool.true_and]
            exact h1
          · rw [listPartsOkB_cons, partOkB_text]
            simpa using h2

theorem parseLoop_escaped_step (h : Helper) (pb : List Char → List Part)
    (value : List Char) (lf position start : Nat) (parts : List Part) (endIdx : Nat)
    (hend : h.nextValidEnd value start = some endIdx)
    (hesc : h.isEscaped value start = true) :
    parseLoop h pb value (lf + 1) position (some start) parts
      = parseLoop h pb value lf (start + h.pre.length)
          (findFrom h.pre value (start + h.pre.length))
          (addTextRev value start (start + h.pre.length)
            (addTextRev value position (start - 1) parts)) := by
  simp [parseLoop, hend, hesc]

theorem parseLoop_body_step (h : Helper) (pb : List Char → List Part)
    (value : List Char) (lf position start : Nat) (parts : List Part) (endIdx : Nat)
    (hend : h.nextValidEnd value start = some endIdx)
    (hesc : h.isEscaped value start = false) :
    parseLoop h pb value (lf + 1) position (some start) parts
      = parseLoop h pb value lf (endIdx + h.suf.length)
          (findFrom h.pre value (endIdx + h.suf.length))
          ((pb (slice value (start + h.pre.length) endIdx)).reverse
            ++ addTextRev value position start parts) := by
  simp [parseLoop, hend, hesc]

theorem parseLoop_zero_some (h : Helper) (pb : List Char → List Part)
    (value : List Char) (position start : Nat) (rparts : List Part) :
    parseLoop h pb value 0 position (some start) rparts
      = addTextRev value position value.length rparts := rfl

theorem parseLoop_ok (h : Helper) (pb : List Char → List Part) (value : List Char)
    (hpb : ∀ body, pb body = []
      ∨ ∃ p, pb body = [p] ∧ p.isText = false ∧ partOkB p = true) :
    ∀ (lf position : Nat) (si : Option Nat) (rparts : List Part),
      noAdjB rparts = true → listPartsOkB rparts = true →
      noAdjB (parseLoop h pb value lf position si rparts) = true
        ∧ listPartsOkB (parseLoop h pb value lf position si rparts) = true := by
  intro lf
  induction lf with
  | zero =>
    intro position si rparts h1 h2
    cases si with
    | none => rw [parseLoop_none]; exact addTextRev_ok _ _ _ _ h1 h2
    | some s => rw [parseLoop_zero_some]; exact addTextRev_ok _ _ _ _ h1 h2
  | succ lf ih =>
    intro position si rparts h1 h2
    cases si with
    | none => rw [parseLoop_none]; exact addTextRev_ok _ _ _ _ h1 h2
    | some start =>
      cases hend : h.nextValidEnd value start with
      | none =>
        rw [parseLoop_unmatched_step h pb value lf position start _ hend]
        obtain ⟨a1, a2⟩ := addTextRev_ok value position (start + h.pre.length) rparts h1 h2
        exact ih _ _ _ a1 a2
      | some endIdx =>
        by_cases hesc : h.isEscaped value start = true
        · rw [parseLoop_escaped_step h pb value lf position start rparts endIdx hend hesc]
          obtain ⟨a1, a2⟩ := addTextRev_ok value position (start - 1) rparts h1 h2
          obtain ⟨b1, b2⟩ := addTextRev_ok value start (start + h.pre.length) _ a1 a2
          exact ih _ _ _ b1 b2
        · rw [parseLoop_body_step h pb value lf position start rparts endIdx hend
            (by simpa using hesc)]
          obtain ⟨a1, a2⟩ := addTextRev_ok value position start rparts h1 h2
          rcases hpb (slice value (start + h.pre.length) endIdx) with hb | ⟨p, hb, hnt, hok⟩
          · rw [hb, List.reverse_nil, List.nil_append]
            exact ih _ _ _ a1 a2
          · rw [hb, List.reverse_singleton, List.singleton_append]
            have b1 : noAdjB (p :: addTextRev value position start rparts) = true := by
              rw [noAdjB_cons, hnt]
              simpa using a1
            have b2 : listPartsOkB (p :: addTextRev value position start rparts) = true := by
              rw [listPartsOkB_cons, hok]
              simpa using a2
            exact ih _ _ _ b1 b2

theorem createNestedAux_ok (h : Helper) (txt : List Char) :
    ∀ (parts keyAcc : List Part),
      noAdjB (keyAcc ++ parts) = true →
      listPartsOkB keyAcc = true → listPartsOkB parts = true →
      partOkB (createNestedAux h txt keyAcc parts) = true := by
  intro parts
  induction parts with
  | nil =>
    intro keyAcc hadj hk _
    rw [List.append_nil] at hadj
    show partOkB (Part.nested txt keyAcc none) = true
    rw [partOkB_nested_none]
    simp [hadj, hk]
  | cons part rest ih =>
    intro keyAcc hadj hk hp
    rw [listPartsOkB_cons] at hp
    obtain ⟨hpart, hrest⟩ := (Bool.and_eq_true _ _).mp hp
    cases part with
    | text t =>
      unfold createNestedAux
      have hadj2 : noAdjB ((keyAcc ++ [Part.text (h.parseSection t).1]) ++ rest) = true := by
        rw [List.append_assoc, List.singleton_append]
        rw [noAdjB_append_congr (Part.text (h.parseSection t).1) (Part.text t) rfl keyAcc rest]
        exact hadj
      cases hps : h.parseSection t with
      | mk key fb =>
        rw [hps] at hadj2
        cases fb with
        | none =>
          show partOkB (createNestedAux h txt (keyAcc ++ [Part.text key]) rest) = true
          apply ih
          · rw [List.append_assoc]
            rw [List.append_assoc] at hadj2
            exact hadj2
          · rw [listPartsOkB_append, hk, listPartsOkB_cons, partOkB_text, listPartsOkB_nil]
            rfl
          · exact hrest
        | some fbv =>
          show partOkB (Part.nested txt (keyAcc ++ [Part.text key])
            (some (Part.text fbv :: rest))) = true
          rw [partOkB_nested_some]
          obtain ⟨hka, hrr⟩ := noAdjB_append_split _ _ hadj2
          have hsplit0 : noAdjB (keyAcc ++ Part.text t :: rest) = true := hadj
          have hsplit1 : noAdjB (Part.text t :: rest) = true :=
            (noAdjB_append_split keyAcc _ hsplit0).2
          rw [noAdjB_cons] at hsplit1
          obtain ⟨hpair, hnr⟩ := (Bool.and_eq_true _ _).mp hsplit1
      -- hpair : !(true && headIsText rest) = true → headIsText rest = false
          have hhr : headIsText rest = false := by
            revert hpair
            cases headIsText rest <;> simp [Part.isText]
          have hfb : noAdjB (Part.text fbv :: rest) = true := by
            rw [noAdjB_cons, hhr]
            simpa using hnr
          have hkl : listPartsOkB (keyAcc ++ [Part.text key]) = true := by
            rw [listPartsOkB_append, hk, listPartsOkB_cons, partOkB_text, listPartsOkB_nil]
            rfl
          have hfl : listPartsOkB (Part.text fbv :: rest) = true := by
            rw [listPartsOkB_cons, partOkB_text]
            simpa using hrest
          simp [hka, hkl, hfb, hfl]
    | simple stxt skey sfb =>
      show partOkB (createNestedAux h txt (keyAcc ++ [Part.simple stxt skey sfb]) rest) = true
      apply ih
      · rw [List.append_assoc]
        simpa using hadj
      · rw [listPartsOkB_append, hk, listPartsOkB_cons, partOkB_simple, listPartsOkB_nil]
        rfl
      · exact hrest
    | nested ntxt nkps ndps =>
      show partOkB (createNestedAux h txt (keyAcc ++ [Part.nested ntxt nkps ndps]) rest) = true
      apply ih
      · rw [List.append_assoc]
        simpa using hadj
      · rw [listPartsOkB_append, hk, listPartsOkB_cons, listPartsOkB_nil]
        simpa using hpart
      · exact hrest

theorem createNested_ok (h : Helper) (txt : List Char) (parts : List Part)
    (h1 : noAdjB parts = true) (h2 : listPartsOkB parts = true) :
    partOkB (h.createNested txt parts) = true
      ∧ (h.createNested txt parts).isText = false := by
  unfold Helper.createNested
  cases h.sep with
  | none =>
    constructor
    · rw [partOkB_nested_none]; simp [h1, h2]
    · rfl
  | some s =>
    constructor
    · exact createNestedAux_ok h txt parts [] (by simpa using h1) rfl h2
    · -- createNestedAux always returns a nested part
      have : ∀ (ps ka : List Part), (createNestedAux h txt ka ps).isText = false := by
        intro ps
        induction ps with
        | nil => intro ka; rfl
        | cons p rest ih =>
          intro ka
          cases p with
          | text t =>
            unfold createNestedAux
            cases hps : h.parseSection t with
            | mk key fb =>
              cases fb with
              | none => exact ih _
              | some fbv => rfl
          | simple stxt skey sfb => exact ih _
          | nested ntxt nkps ndps => exact ih _
      exact this parts []

theorem parse_ok : ∀ (fuel : Nat) (h : Helper) (value : List Char) (inPh : Bool),
    (noAdjB (h.parse fuel value inPh) = true
      ∧ listPartsOkB (h.parse fuel value inPh) = true)
    ∧ (inPh = true → h.parse fuel value inPh = []
        ∨ ∃ p, h.parse fuel value inPh = [p] ∧ p.isText = false ∧ partOkB p = true) := by
  intro fuel
  induction fuel with
  | zero =>
    intro h value inPh
    exact ⟨⟨rfl, rfl⟩, fun _ => Or.inl rfl⟩
  | succ fuel ih =>
    intro h value inPh
    cases hf : findFrom h.pre value 0 with
    | none =>
      cases inPh with
      | true =>
        constructor
        · constructor
          · simp [Helper.parse, hf, noAdjB]
          · simp [Helper.parse, hf, listPartsOkB_cons, listPartsOkB_nil, partOkB_simple]
        · intro _
          refine Or.inr ⟨Part.simple value (h.parseSection value).1 (h.parseSection value).2,
            ?_, rfl, rfl⟩
          simp [Helper.parse, hf]
      | false =>
        constructor
        · constructor
          · simp [Helper.parse, hf, noAdjB]
          · simp [Helper.parse, hf, listPartsOkB_cons, listPartsOkB_nil, partOkB_text]
        · intro hc; cases hc
    | some s0 =>
      have hpb : ∀ body, (fun body => h.parse fuel body true) body = []
          ∨ ∃ p, (fun body => h.parse fuel body true) body = [p]
            ∧ p.isText = false ∧ partOkB p = true := by
        intro body
        exact (ih h body true).2 rfl
      obtain ⟨l1, l2⟩ := parseLoop_ok h (fun body => h.parse fuel body true) value hpb
        (value.length + 1) 0 (some s0) [] rfl rfl
      have r1 : noAdjB (parseLoop h (fun body => h.parse fuel body true) value
          (value.length + 1) 0 (some s0) []).reverse = true := by
        rw [noAdjB_reverse]; exact l1
      have r2 : listPartsOkB (parseLoop h (fun body => h.parse fuel body true) value
          (value.length + 1) 0 (some s0) []).reverse = true := by
        rw [listPartsOkB_reverse]; exact l2
      cases inPh with
      | true =>
        obtain ⟨c1, c2⟩ := createNested_ok h value _ r1 r2
        constructor
        · constructor
          · simp [Helper.parse, hf, noAdjB]
          · simp [Helper.parse, hf, listPartsOkB_cons, listPartsOkB_nil, c1]
        · intro _
          refine Or.inr ⟨_, ?_, c2, c1⟩
          simp [Helper.parse, hf]
      | false =>
        constructor
        · constructor
          · simpa [Helper.parse, hf] using r1
          · simpa [Helper.parse, hf] using r2
        · intro hc; cases hc

theorem c9_no_adjacent_literals (h : Helper) (fuel : Nat) (value : List Char)
    (inPh : Bool) : listOkB (h.parse fuel value inPh) = true := by
  obtain ⟨⟨h1, h2⟩, -⟩ := parse_ok fuel h value inPh
  simp [listOkB, h1, h2]

end PlaceholderHelper
